import Mathlib

/-
Verification of the authorship-range tracker in
src/frontend/src/components/editor-page/editor-pane/codemirror-extensions/
authorship-ranges/authorship-layers-extensions.ts.

The tracker stores a CodeMirror DecorationSet of mark decorations; the
StateField update function remaps them through document changes and
reconciles them with incoming AuthorshipUpdate effects.  The embedding
below models the DecorationSet as a sorted list of marks and translates
the update function line by line.  Behavior of the CodeMirror library
functions the source calls is modelled where it is observable:

- Decoration.mark(spec).range(from, to) (called by createMark, lines
  24-32) throws a RangeError with message "Mark decorations may not be
  empty" when from >= to; this is modelled by createMark returning
  Except.error with that message.
- DecorationSet.update with filter/filterFrom/filterTo (lines 62-94)
  invokes the filter only on ranges overlapping the inclusive span
  [filterFrom, filterTo] (a range is passed to the filter exactly when
  filterFrom <= rangeTo and rangeFrom <= filterTo); ranges outside that
  span are kept untouched.
- DecorationSet.update with an add list (lines 101-103) merges the added
  ranges into the sorted set; an added range is placed before the first
  existing range with a strictly larger start (on equal starts the
  existing range stays first, since all marks here have equal sides).
  The add list must already be sorted by start; otherwise the library
  RangeSetBuilder throws "Ranges must be added sorted ...".
- An exception thrown inside the StateField update aborts the whole
  transaction, so the field keeps its previous value; this is modelled
  by applyOwnershipClaimTx returning the input state on Except.error.
-/

namespace AuthorshipLayers

/-- The spec record of a mark decoration: the CSS class and the optional
attribute record, as produced by Decoration.mark in createMark. -/
structure DecorationSpec where
  className : String
  attributes : Option (List (String × String))
deriving DecidableEq

/-- One stored decoration range: the half-open span and the decoration
spec it carries. -/
structure Mark where
  mFrom : Nat
  mTo : Nat
  spec : DecorationSpec
deriving DecidableEq

/-- The effect payload (source interface AuthorshipUpdate, lines 12-16). -/
structure AuthorshipUpdate where
  ufrom : Nat
  uto : Nat
  userId : String
deriving DecidableEq

/-- The decoration spec built by createMark (lines 26-31): class
authorship-highlight and a data-user-id attribute holding the user id. -/
def authorshipSpec (userId : String) : DecorationSpec :=
  { className := "authorship-highlight"
    attributes := some [("data-user-id", userId)] }

/-- createMark (lines 24-32).  Decoration.mark(...).range(from, to) in
the CodeMirror library throws a RangeError when from >= to because mark
decorations may not be empty; the error case models that exception. -/
def createMark (rFrom rTo : Nat) (userId : String) : Except String Mark :=
  if rTo ≤ rFrom then Except.error "Mark decorations may not be empty"
  else Except.ok { mFrom := rFrom, mTo := rTo, spec := authorshipSpec userId }

/-- Owner lookup in the filter callback (line 64):
value.spec.attributes with key data-user-id, defaulting to the empty
string when the attribute record or the key is absent. -/
def decorationUserId (m : Mark) : String :=
  match m.spec.attributes with
  | some attrs => (attrs.lookup "data-user-id").getD ""
  | none => ""

/-- A decoration is handed to the filter callback exactly when its range
overlaps the inclusive filter span [effectFrom, effectTo] (CodeMirror
RangeSet.update semantics for filterFrom/filterTo, used at lines 92-93). -/
def inFilterRange (m : Mark) (effectFrom effectTo : Nat) : Bool :=
  effectFrom ≤ m.mTo && m.mFrom ≤ effectTo

/-- The filter callback decision (lines 63-90) for a decoration that is
in filter range: keep (true) when the decoration touches the claim at a
single point (line 66), has the same owner (line 72; the added
"decorationUserId is not undefined" conjunct is always true because of
the default empty string), or shares a boundary exactly (line 78);
otherwise the decoration is removed and split. -/
def keepDecoration (decorationFrom decorationTo : Nat) (decUserId : String)
    (effectFrom effectTo : Nat) (effectUserId : String) : Bool :=
  if decorationFrom == effectTo || decorationTo == effectFrom then true
  else if decUserId == effectUserId then true
  else if decorationFrom == effectFrom || decorationTo == effectTo then true
  else false

/-- A decoration is removed and split exactly when the filter callback
runs on it and returns false. -/
def splitCond (effectFrom effectTo : Nat) (effectUserId : String) (m : Mark) : Bool :=
  inFilterRange m effectFrom effectTo &&
    !(keepDecoration m.mFrom m.mTo (decorationUserId m) effectFrom effectTo effectUserId)

/-- The three replacement pieces pushed by the split branch
(lines 85-89): left remainder, the claimed middle, right remainder, each
built with createMark and therefore failing like the source does when a
piece would be empty or reversed. -/
def splitPieces (m : Mark) (effectFrom effectTo : Nat) (effectUserId : String) :
    Except String (List Mark) :=
  match createMark m.mFrom effectFrom (decorationUserId m) with
  | Except.error e => Except.error e
  | Except.ok leftPiece =>
    match createMark effectFrom effectTo effectUserId with
    | Except.error e => Except.error e
    | Except.ok middlePiece =>
      match createMark effectTo m.mTo (decorationUserId m) with
      | Except.error e => Except.error e
      | Except.ok rightPiece => Except.ok [leftPiece, middlePiece, rightPiece]

/-- The filtering pass of authorshipDecorations.update (lines 62-94):
walks the sorted decoration list, keeps every decoration outside the
filter span or accepted by the callback, and accumulates the replacement
pieces of the split decorations in visit order.  Returns the kept
decorations and the addedDecorations array. -/
def filterPhase (effectFrom effectTo : Nat) (effectUserId : String) :
    List Mark → Except String (List Mark × List Mark)
  | [] => Except.ok ([], [])
  | m :: rest =>
    if splitCond effectFrom effectTo effectUserId m then
      match splitPieces m effectFrom effectTo effectUserId with
      | Except.error e => Except.error e
      | Except.ok pieces =>
        match filterPhase effectFrom effectTo effectUserId rest with
        | Except.error e => Except.error e
        | Except.ok (kept, added) => Except.ok (kept, pieces ++ added)
    else
      match filterPhase effectFrom effectTo effectUserId rest with
      | Except.error e => Except.error e
      | Except.ok (kept, added) => Except.ok (m :: kept, added)

/-- Insert one added range into the sorted decoration list: it goes
before the first existing range with a strictly larger start (existing
ranges stay first on ties, per RangeSet.update merge order). -/
def insertMark (m : Mark) : List Mark → List Mark
  | [] => [m]
  | x :: xs => if m.mFrom < x.mFrom then m :: x :: xs else x :: insertMark m xs

/-- Merging a sorted add list into the decoration set
(authorshipDecorations.update with add, lines 101-103). -/
def addMarks (added : List Mark) (decos : List Mark) : List Mark :=
  added.foldl (fun acc m => insertMark m acc) decos

/-- Sortedness of the add list by start position; an unsorted add list
makes the library RangeSetBuilder throw. -/
def sortedByFrom : List Mark → Bool
  | [] => true
  | [_] => true
  | a :: b :: rest => a.mFrom ≤ b.mFrom && sortedByFrom (b :: rest)

/-- Processing of one AuthorshipUpdate effect (lines 55-103): run the
filter pass, push the bare claim when no split produced replacement
pieces (lines 96-99), then add the collected decorations (lines
101-103).  Any exception from the library propagates as an error. -/
def applyOwnershipClaim (decos : List Mark) (effectFrom effectTo : Nat)
    (effectUserId : String) : Except String (List Mark) :=
  match filterPhase effectFrom effectTo effectUserId decos with
  | Except.error e => Except.error e
  | Except.ok (kept, added) =>
    match (if added.isEmpty
           then Except.map (fun m => [m]) (createMark effectFrom effectTo effectUserId)
           else Except.ok added) with
    | Except.error e => Except.error e
    | Except.ok toAdd =>
      if sortedByFrom toAdd then Except.ok (addMarks toAdd kept)
      else Except.error "Ranges must be added sorted by from position and startSide"

/-- Transaction-level effect application: an exception thrown inside the
StateField update aborts the transaction and the field keeps its
previous decoration set. -/
def applyOwnershipClaimTx (decos : List Mark) (u : AuthorshipUpdate) : List Mark :=
  match applyOwnershipClaim decos u.ufrom u.uto u.userId with
  | Except.ok next => next
  | Except.error _ => decos

/-- Remapping one mark through a document change: start and end are
passed through mapPos independently (line 50 together with the library
RangeSet.map). -/
def remapMark (mapPos : Nat → Nat) (m : Mark) : Mark :=
  { m with mFrom := mapPos m.mFrom, mTo := mapPos m.mTo }

/-- Modelled from the spec: line 50 calls the library function
DecorationSet.map (not part of this repository), whose contract per the
spec is that every stored start and end is remapped independently and a
mark whose remapped span has start >= end (its span was fully deleted)
is dropped from the set. -/
def applyDocumentChange (mapPos : Nat → Nat) (decos : List Mark) : List Mark :=
  (decos.map (remapMark mapPos)).filter (fun m => m.mFrom < m.mTo)

/-- The whole StateField update (lines 49-106): remap through the
transaction changes, then process each authorship effect in order; a
transaction without authorship effects returns the remapped set
unchanged (lines 52-54). -/
def authorshipsStateFieldUpdate (decos : List Mark) (mapPos : Nat → Nat)
    (effects : List AuthorshipUpdate) : List Mark :=
  effects.foldl applyOwnershipClaimTx (applyDocumentChange mapPos decos)

/-- One tracker operation: a document change (a transaction with changes
and no authorship effect) or an ownership claim (a transaction with one
authorship effect and no changes, so the remap step is the identity). -/
inductive TrackerOp where
  | docChange (mapPos : Nat → Nat)
  | claim (u : AuthorshipUpdate)

/-- Apply one tracker operation to the stored decoration set. -/
def applyOp (decos : List Mark) : TrackerOp → List Mark
  | TrackerOp.docChange mapPos => applyDocumentChange mapPos decos
  | TrackerOp.claim u => applyOwnershipClaimTx decos u

/-- Run a sequence of operations from the empty decoration set
(create, line 46-48). -/
def runOps (ops : List TrackerOp) : List Mark :=
  ops.foldl applyOp []

/-- Disjointness of two half-open spans. -/
def disjointB (a b : Mark) : Bool :=
  a.mTo ≤ b.mFrom || b.mTo ≤ a.mFrom

/-- Pairwise disjointness of a stored decoration list. -/
def pairwiseDisjointB : List Mark → Bool
  | [] => true
  | m :: rest => (rest.all fun x => disjointB m x) && pairwiseDisjointB rest

/-- A position is covered by a mark when it lies in its half-open span. -/
def coversB (m : Mark) (pos : Nat) : Bool :=
  m.mFrom ≤ pos && pos < m.mTo

/-- The owners of all marks covering a position, in storage order. -/
def ownersAt (decos : List Mark) (pos : Nat) : List String :=
  (decos.filter fun m => coversB m pos).map decorationUserId

/-- Occurrence count of a mark in a decoration list. -/
def countMark (a : Mark) : List Mark → Nat
  | [] => 0
  | x :: xs => (if x = a then 1 else 0) + countMark a xs

/-- A well-formed stored mark: non-empty span and the createMark
encoding (authorship-highlight class and the data-user-id attribute
holding exactly the owner read back by decorationUserId). -/
def goodMark (m : Mark) : Prop :=
  m.mFrom < m.mTo ∧ m.spec = authorshipSpec (decorationUserId m)

end AuthorshipLayers

deriving instance DecidableEq for Except

namespace AuthorshipLayers

theorem createMark_ok_iff {rFrom rTo : Nat} {u : String} {m : Mark} :
    createMark rFrom rTo u = Except.ok m ↔
      rFrom < rTo ∧ m = ⟨rFrom, rTo, authorshipSpec u⟩ := by
  unfold createMark
  by_cases h : rTo ≤ rFrom
  · rw [if_pos h]
    simp
    intro hlt
    omega
  · rw [if_neg h]
    simp
    constructor
    · intro he
      exact ⟨Nat.not_le.mp h, he.symm⟩
    · intro hm
      exact hm.2.symm

theorem decorationUserId_authorshipSpec {rFrom rTo : Nat} {v : String} :
    decorationUserId ⟨rFrom, rTo, authorshipSpec v⟩ = v := rfl

theorem splitPieces_ok_iff {m : Mark} {eF eT : Nat} {u : String} {ps : List Mark} :
    splitPieces m eF eT u = Except.ok ps ↔
      m.mFrom < eF ∧ eF < eT ∧ eT < m.mTo ∧
        ps = [⟨m.mFrom, eF, authorshipSpec (decorationUserId m)⟩,
          ⟨eF, eT, authorshipSpec u⟩,
          ⟨eT, m.mTo, authorshipSpec (decorationUserId m)⟩] := by
  constructor
  · intro h
    unfold splitPieces at h
    cases h1 : createMark m.mFrom eF (decorationUserId m) with
    | error e => rw [h1] at h; cases h
    | ok leftPiece =>
      rw [h1] at h
      cases h2 : createMark eF eT u with
      | error e => rw [h2] at h; cases h
      | ok middlePiece =>
        rw [h2] at h
        cases h3 : createMark eT m.mTo (decorationUserId m) with
        | error e => rw [h3] at h; cases h
        | ok rightPiece =>
          rw [h3] at h
          obtain ⟨hl, rfl⟩ := createMark_ok_iff.mp h1
          obtain ⟨hm, rfl⟩ := createMark_ok_iff.mp h2
          obtain ⟨hr, rfl⟩ := createMark_ok_iff.mp h3
          simp at h
          exact ⟨hl, hm, hr, h.symm⟩
  · rintro ⟨h1, h2, h3, rfl⟩
    unfold splitPieces
    rw [createMark_ok_iff.mpr ⟨h1, rfl⟩, createMark_ok_iff.mpr ⟨h2, rfl⟩,
      createMark_ok_iff.mpr ⟨h3, rfl⟩]

theorem splitPieces_error_of_le {m : Mark} {eF eT : Nat} {u : String} (h : eT ≤ eF) :
    ∃ e, splitPieces m eF eT u = Except.error e := by
  unfold splitPieces
  cases h1 : createMark m.mFrom eF (decorationUserId m) with
  | error e => exact ⟨e, rfl⟩
  | ok leftPiece =>
    have h2 : createMark eF eT u = Except.error "Mark decorations may not be empty" := by
      unfold createMark
      rw [if_pos h]
    rw [h2]
    exact ⟨_, rfl⟩

theorem keepDecoration_of_touching {df dt : Nat} {du : String} {eF eT : Nat} {eu : String}
    (h : df = eT ∨ dt = eF) : keepDecoration df dt du eF eT eu = true := by
  unfold keepDecoration
  rcases h with rfl | rfl
  · simp
  · simp

theorem keepDecoration_of_same_user {df dt : Nat} {du : String} {eF eT : Nat} {eu : String}
    (h : du = eu) : keepDecoration df dt du eF eT eu = true := by
  unfold keepDecoration
  subst h
  simp

theorem splitCond_eq_false_of_keep {eF eT : Nat} {u : String} {m : Mark}
    (h : keepDecoration m.mFrom m.mTo (decorationUserId m) eF eT u = true) :
    splitCond eF eT u m = false := by
  simp [splitCond, h]

theorem mem_insertMark {a m : Mark} {l : List Mark} :
    a ∈ insertMark m l ↔ a = m ∨ a ∈ l := by
  induction l with
  | nil => simp [insertMark]
  | cons x xs ih =>
    unfold insertMark
    by_cases h : m.mFrom < x.mFrom
    · rw [if_pos h]
      simp
    · rw [if_neg h]
      simp [ih]
      tauto

theorem mem_addMarks {a : Mark} : ∀ (added l : List Mark),
    a ∈ addMarks added l ↔ a ∈ added ∨ a ∈ l := by
  intro added
  induction added with
  | nil => intro l; simp [addMarks]
  | cons x xs ih =>
    intro l
    have hstep : addMarks (x :: xs) l = addMarks xs (insertMark x l) := rfl
    rw [hstep, ih, mem_insertMark]
    simp [List.mem_cons]
    tauto

theorem countMark_append {a : Mark} (l1 l2 : List Mark) :
    countMark a (l1 ++ l2) = countMark a l1 + countMark a l2 := by
  induction l1 with
  | nil => simp [countMark]
  | cons x xs ih =>
    show (if x = a then 1 else 0) + countMark a (xs ++ l2) =
      (if x = a then 1 else 0) + countMark a xs + countMark a l2
    rw [ih, Nat.add_assoc]

theorem countMark_insertMark {a m : Mark} : ∀ (l : List Mark),
    countMark a (insertMark m l) = (if m = a then 1 else 0) + countMark a l := by
  intro l
  induction l with
  | nil => simp [insertMark, countMark]
  | cons x xs ih =>
    unfold insertMark
    by_cases h : m.mFrom < x.mFrom
    · rw [if_pos h]
      simp [countMark]
    · rw [if_neg h]
      simp only [countMark, ih]
      omega

theorem countMark_addMarks {a : Mark} : ∀ (added l : List Mark),
    countMark a (addMarks added l) = countMark a added + countMark a l := by
  intro added
  induction added with
  | nil => intro l; simp [addMarks, countMark]
  | cons x xs ih =>
    intro l
    have hstep : addMarks (x :: xs) l = addMarks xs (insertMark x l) := rfl
    rw [hstep, ih, countMark_insertMark]
    simp only [countMark]
    omega

theorem countMark_eq_zero_of_not_mem {a : Mark} {l : List Mark} (h : a ∉ l) :
    countMark a l = 0 := by
  induction l with
  | nil => rfl
  | cons x xs ih =>
    simp only [List.mem_cons, not_or] at h
    rw [countMark, ih h.2, if_neg (fun hxa => h.1 hxa.symm)]

end AuthorshipLayers

namespace AuthorshipLayers

theorem filterPhase_kept {eF eT : Nat} {u : String} : ∀ {l kept added : List Mark},
    filterPhase eF eT u l = Except.ok (kept, added) →
      ∀ a ∈ kept, a ∈ l ∧ splitCond eF eT u a = false := by
  intro l
  induction l with
  | nil =>
    intro kept added h
    simp [filterPhase] at h
    obtain ⟨rfl, rfl⟩ := h
    intro a ha
    simp at ha
  | cons m rest ih =>
    intro kept added h
    unfold filterPhase at h
    by_cases hc : splitCond eF eT u m
    · rw [if_pos hc] at h
      cases hp : splitPieces m eF eT u with
      | error e => rw [hp] at h; cases h
      | ok pieces =>
        rw [hp] at h
        cases hr : filterPhase eF eT u rest with
        | error e => rw [hr] at h; cases h
        | ok pr =>
          obtain ⟨kept', added'⟩ := pr
          rw [hr] at h
          simp at h
          obtain ⟨rfl, rfl⟩ := h
          intro a ha
          obtain ⟨h1, h2⟩ := ih hr a ha
          exact ⟨List.mem_cons_of_mem _ h1, h2⟩
    · rw [if_neg hc] at h
      cases hr : filterPhase eF eT u rest with
      | error e => rw [hr] at h; cases h
      | ok pr =>
        obtain ⟨kept', added'⟩ := pr
        rw [hr] at h
        simp at h
        obtain ⟨rfl, rfl⟩ := h
        intro a ha
        rcases List.mem_cons.mp ha with rfl | ha'
        · exact ⟨List.mem_cons_self _ _, by simpa using hc⟩
        · obtain ⟨h1, h2⟩ := ih hr a ha'
          exact ⟨List.mem_cons_of_mem _ h1, h2⟩

theorem filterPhase_added {eF eT : Nat} {u : String} : ∀ {l kept added : List Mark},
    filterPhase eF eT u l = Except.ok (kept, added) →
      ∀ a ∈ added, splitCond eF eT u a = false ∧ a.mFrom < a.mTo ∧
        a.spec = authorshipSpec (decorationUserId a) := by
  intro l
  induction l with
  | nil =>
    intro kept added h
    simp [filterPhase] at h
    obtain ⟨rfl, rfl⟩ := h
    intro a ha
    simp at ha
  | cons m rest ih =>
    intro kept added h
    unfold filterPhase at h
    by_cases hc : splitCond eF eT u m
    · rw [if_pos hc] at h
      cases hp : splitPieces m eF eT u with
      | error e => rw [hp] at h; cases h
      | ok pieces =>
        rw [hp] at h
        cases hr : filterPhase eF eT u rest with
        | error e => rw [hr] at h; cases h
        | ok pr =>
          obtain ⟨kept', added'⟩ := pr
          rw [hr] at h
          simp at h
          obtain ⟨rfl, rfl⟩ := h
          intro a ha
          rcases List.mem_append.mp ha with hain | hain
          · obtain ⟨h1, h2, h3, rfl⟩ := splitPieces_ok_iff.mp hp
            simp only [List.mem_cons, List.not_mem_nil, or_false] at hain
            rcases hain with rfl | rfl | rfl
            · exact ⟨splitCond_eq_false_of_keep (keepDecoration_of_touching (Or.inr rfl)),
                h1, rfl⟩
            · exact ⟨splitCond_eq_false_of_keep (keepDecoration_of_same_user rfl), h2, rfl⟩
            · exact ⟨splitCond_eq_false_of_keep (keepDecoration_of_touching (Or.inl rfl)),
                h3, rfl⟩
          · exact ih hr a hain
    · rw [if_neg hc] at h
      cases hr : filterPhase eF eT u rest with
      | error e => rw [hr] at h; cases h
      | ok pr =>
        obtain ⟨kept', added'⟩ := pr
        rw [hr] at h
        simp at h
        obtain ⟨rfl, rfl⟩ := h
        exact ih hr

theorem filterPhase_all_pass {eF eT : Nat} {u : String} : ∀ {l : List Mark},
    (∀ a ∈ l, splitCond eF eT u a = false) →
      filterPhase eF eT u l = Except.ok (l, []) := by
  intro l
  induction l with
  | nil => intro _; rfl
  | cons m rest ih =>
    intro h
    have hm := h m (List.mem_cons_self m rest)
    unfold filterPhase
    rw [if_neg (by simp [hm]), ih (fun a ha => h a (List.mem_cons_of_mem _ ha))]

theorem filterPhase_lt_of_added_nonempty {eF eT : Nat} {u : String} :
    ∀ {l kept added : List Mark},
    filterPhase eF eT u l = Except.ok (kept, added) → added ≠ [] → eF < eT := by
  intro l
  induction l with
  | nil =>
    intro kept added h hne
    simp [filterPhase] at h
    obtain ⟨rfl, rfl⟩ := h
    exact absurd rfl hne
  | cons m rest ih =>
    intro kept added h hne
    unfold filterPhase at h
    by_cases hc : splitCond eF eT u m
    · rw [if_pos hc] at h
      cases hp : splitPieces m eF eT u with
      | error e => rw [hp] at h; cases h
      | ok pieces => exact (splitPieces_ok_iff.mp hp).2.1
    · rw [if_neg hc] at h
      cases hr : filterPhase eF eT u rest with
      | error e => rw [hr] at h; cases h
      | ok pr =>
        obtain ⟨kept', added'⟩ := pr
        rw [hr] at h
        simp at h
        obtain ⟨rfl, rfl⟩ := h
        exact ih hr hne

theorem filterPhase_touch_kept {eF eT : Nat} {u : String} :
    ∀ {l kept added : List Mark} {m : Mark},
    filterPhase eF eT u l = Except.ok (kept, added) → m ∈ l →
      (m.mFrom = eT ∨ m.mTo = eF) → m ∈ kept := by
  intro l
  induction l with
  | nil =>
    intro kept added m _ hm _
    simp at hm
  | cons x rest ih =>
    intro kept added m h hm ht
    unfold filterPhase at h
    rcases List.mem_cons.mp hm with rfl | hm'
    · have hc : splitCond eF eT u m = false :=
        splitCond_eq_false_of_keep (keepDecoration_of_touching ht)
      rw [if_neg (by simp [hc])] at h
      cases hr : filterPhase eF eT u rest with
      | error e => rw [hr] at h; cases h
      | ok pr =>
        obtain ⟨kept', added'⟩ := pr
        rw [hr] at h
        simp at h
        obtain ⟨rfl, rfl⟩ := h
        exact List.mem_cons_self _ _
    · by_cases hc : splitCond eF eT u x
      · rw [if_pos hc] at h
        cases hp : splitPieces x eF eT u with
        | error e => rw [hp] at h; cases h
        | ok pieces =>
          rw [hp] at h
          cases hr : filterPhase eF eT u rest with
          | error e => rw [hr] at h; cases h
          | ok pr =>
            obtain ⟨kept', added'⟩ := pr
            rw [hr] at h
            simp at h
            obtain ⟨rfl, rfl⟩ := h
            exact ih hr hm' ht
      · rw [if_neg hc] at h
        cases hr : filterPhase eF eT u rest with
        | error e => rw [hr] at h; cases h
        | ok pr =>
          obtain ⟨kept', added'⟩ := pr
          rw [hr] at h
          simp at h
          obtain ⟨rfl, rfl⟩ := h
          exact List.mem_cons_of_mem _ (ih hr hm' ht)

theorem filterPhase_of_le {eF eT : Nat} {u : String} (hle : eT ≤ eF) : ∀ (l : List Mark),
    filterPhase eF eT u l = Except.ok (l, []) ∨
      ∃ e, filterPhase eF eT u l = Except.error e := by
  intro l
  induction l with
  | nil => left; rfl
  | cons m rest ih =>
    by_cases hc : splitCond eF eT u m
    · right
      obtain ⟨e, he⟩ := @splitPieces_error_of_le m eF eT u hle
      refine ⟨e, ?_⟩
      unfold filterPhase
      rw [if_pos hc, he]
    · rcases ih with hok | ⟨e, he⟩
      · left
        unfold filterPhase
        rw [if_neg hc, hok]
      · right
        refine ⟨e, ?_⟩
        unfold filterPhase
        rw [if_neg hc, he]

theorem applyOwnershipClaim_ok_elim {p : List Mark} {eF eT : Nat} {u : String}
    {p1 : List Mark} (h : applyOwnershipClaim p eF eT u = Except.ok p1) :
    ∃ kept added toAdd, filterPhase eF eT u p = Except.ok (kept, added) ∧
      ((added = [] ∧ eF < eT ∧ toAdd = [⟨eF, eT, authorshipSpec u⟩]) ∨
        (added ≠ [] ∧ toAdd = added)) ∧
      sortedByFrom toAdd = true ∧ p1 = addMarks toAdd kept := by
  unfold applyOwnershipClaim at h
  cases hf : filterPhase eF eT u p with
  | error e => rw [hf] at h; cases h
  | ok pr =>
    obtain ⟨kept, added⟩ := pr
    rw [hf] at h
    cases added with
    | nil =>
      simp only [List.isEmpty_nil, if_pos] at h
      cases hcm : createMark eF eT u with
      | error e =>
        rw [hcm] at h
        simp [Except.map] at h
      | ok c =>
        rw [hcm] at h
        simp only [Except.map] at h
        obtain ⟨hlt, rfl⟩ := createMark_ok_iff.mp hcm
        simp [sortedByFrom] at h
        exact ⟨kept, [], [⟨eF, eT, authorshipSpec u⟩], rfl,
          Or.inl ⟨rfl, hlt, rfl⟩, rfl, h.symm⟩
    | cons a as =>
      simp only [List.isEmpty_cons, Bool.false_eq_true, if_false] at h
      cases hs : sortedByFrom (a :: as) with
      | false => rw [hs] at h; simp at h
      | true =>
        rw [hs] at h
        simp at h
        exact ⟨kept, a :: as, a :: as, rfl,
          Or.inr ⟨List.cons_ne_nil a as, rfl⟩, hs, h.symm⟩

theorem pairwiseDisjointB_cons {m : Mark} {l : List Mark} :
    pairwiseDisjointB (m :: l) = true ↔
      (∀ x ∈ l, disjointB m x = true) ∧ pairwiseDisjointB l = true := by
  simp [pairwiseDisjointB, List.all_eq_true]

theorem pairwiseDisjointB_middle : ∀ {l1 : List Mark} {m0 : Mark} {l2 : List Mark},
    pairwiseDisjointB (l1 ++ m0 :: l2) = true →
      (∀ x ∈ l1, disjointB x m0 = true) ∧ (∀ x ∈ l2, disjointB m0 x = true) := by
  intro l1
  induction l1 with
  | nil =>
    intro m0 l2 h
    rw [List.nil_append] at h
    refine ⟨by simp, (pairwiseDisjointB_cons.mp h).1⟩
  | cons y ys ih =>
    intro m0 l2 h
    rw [List.cons_append] at h
    obtain ⟨hy, hrest⟩ := pairwiseDisjointB_cons.mp h
    obtain ⟨h1, h2⟩ := ih hrest
    refine ⟨?_, h2⟩
    intro x hx
    rcases List.mem_cons.mp hx with rfl | hx'
    · exact hy m0 (by simp)
    · exact h1 x hx'

theorem filterPhase_split_char {eF eT : Nat} {u : String} : ∀ {l kept added : List Mark},
    pairwiseDisjointB l = true →
    filterPhase eF eT u l = Except.ok (kept, added) → added ≠ [] →
      ∃ m0 l1 l2, l = l1 ++ m0 :: l2 ∧ kept = l1 ++ l2 ∧
        m0.mFrom < eF ∧ eF < eT ∧ eT < m0.mTo ∧
        added = [⟨m0.mFrom, eF, authorshipSpec (decorationUserId m0)⟩,
          ⟨eF, eT, authorshipSpec u⟩,
          ⟨eT, m0.mTo, authorshipSpec (decorationUserId m0)⟩] := by
  intro l
  induction l with
  | nil =>
    intro kept added _ h hne
    simp [filterPhase] at h
    obtain ⟨rfl, rfl⟩ := h
    exact absurd rfl hne
  | cons m rest ih =>
    intro kept added hd h hne
    obtain ⟨hdm, hdrest⟩ := pairwiseDisjointB_cons.mp hd
    unfold filterPhase at h
    by_cases hc : splitCond eF eT u m
    · rw [if_pos hc] at h
      cases hp : splitPieces m eF eT u with
      | error e => rw [hp] at h; cases h
      | ok pieces =>
        rw [hp] at h
        obtain ⟨hl1, hl2, hl3, rfl⟩ := splitPieces_ok_iff.mp hp
        have hout : ∀ x ∈ rest, splitCond eF eT u x = false := by
          intro x hx
          have hdx := hdm x hx
          simp [disjointB] at hdx
          have hxr : inFilterRange x eF eT = false := by
            rcases hdx with hcase | hcase
            · have hno : ¬ (x.mFrom ≤ eT) := by omega
              simp [inFilterRange, hno]
            · have hno : ¬ (eF ≤ x.mTo) := by omega
              simp [inFilterRange, hno]
          simp [splitCond, hxr]
        rw [filterPhase_all_pass hout] at h
        simp at h
        obtain ⟨rfl, rfl⟩ := h
        exact ⟨m, [], rest, by simp, by simp, hl1, hl2, hl3, by simp⟩
    · rw [if_neg hc] at h
      cases hr : filterPhase eF eT u rest with
      | error e => rw [hr] at h; cases h
      | ok pr =>
        obtain ⟨kept', added'⟩ := pr
        rw [hr] at h
        simp at h
        obtain ⟨rfl, rfl⟩ := h
        obtain ⟨m0, l1, l2, rfl, rfl, h1, h2, h3, rfl⟩ := ih hdrest hr hne
        exact ⟨m0, m :: l1, l2, by simp, by simp, h1, h2, h3, rfl⟩

theorem applyDocumentChange_good {f : Nat → Nat} {p : List Mark}
    (hp : ∀ a ∈ p, goodMark a) : ∀ a ∈ applyDocumentChange f p, goodMark a := by
  intro a ha
  unfold applyDocumentChange at ha
  obtain ⟨ha', hlt⟩ := List.mem_filter.mp ha
  obtain ⟨b, hb, rfl⟩ := List.mem_map.mp ha'
  exact ⟨by simpa using hlt, (hp b hb).2⟩

theorem applyOwnershipClaim_good {p : List Mark} {eF eT : Nat} {u : String}
    {p1 : List Mark} (hp : ∀ a ∈ p, goodMark a)
    (h : applyOwnershipClaim p eF eT u = Except.ok p1) : ∀ a ∈ p1, goodMark a := by
  obtain ⟨kept, added, toAdd, hf, hcase, hsort, rfl⟩ := applyOwnershipClaim_ok_elim h
  intro a ha
  rcases (mem_addMarks toAdd kept).mp ha with hta | hk
  · rcases hcase with ⟨_, hlt, rfl⟩ | ⟨_, rfl⟩
    · simp only [List.mem_singleton] at hta
      subst hta
      exact ⟨hlt, rfl⟩
    · obtain ⟨_, hwf, hspec⟩ := filterPhase_added hf a hta
      exact ⟨hwf, hspec⟩
  · exact hp a ((filterPhase_kept hf a hk).1)

theorem runOps_good : ∀ (ops : List TrackerOp), ∀ a ∈ runOps ops, goodMark a := by
  have key : ∀ (ops : List TrackerOp) (p : List Mark), (∀ a ∈ p, goodMark a) →
      ∀ a ∈ ops.foldl applyOp p, goodMark a := by
    intro ops
    induction ops with
    | nil =>
      intro p hp
      simpa using hp
    | cons op rest ih =>
      intro p hp
      have hstep : ∀ a ∈ applyOp p op, goodMark a := by
        cases op with
        | docChange f => exact applyDocumentChange_good hp
        | claim uu =>
          show ∀ a ∈ applyOwnershipClaimTx p uu, goodMark a
          unfold applyOwnershipClaimTx
          cases hc : applyOwnershipClaim p uu.ufrom uu.uto uu.userId with
          | ok next => exact applyOwnershipClaim_good hp hc
          | error e => exact hp
      rw [List.foldl_cons]
      exact ih (applyOp p op) hstep
  intro ops a ha
  exact key ops [] (by simp) a ha

end AuthorshipLayers

namespace AuthorshipLayers

/-- C7: starting from the partition with the single interval
(0, 5, alice), the claim (0, 5, bob) with both boundaries exactly
coincident and a different owner keeps the existing interval unchanged
via the exact-boundary rule, and since no split occurred the claim is
additionally inserted, yielding the overlapping pair
(0, 5, alice), (0, 5, bob). -/
theorem C7_exact_boundary_overlapping_pair :
    applyOwnershipClaim [⟨0, 5, authorshipSpec "alice"⟩] 0 5 "bob" =
      Except.ok [⟨0, 5, authorshipSpec "alice"⟩, ⟨0, 5, authorshipSpec "bob"⟩] := by
  decide

/-- C2: the claim that ApplyOwnershipClaim never fails is wrong about the
code.  On the valid partition with the single interval (5, 8, alice)
(pairwise disjoint, start < end) and the claim (2, 10, bob) with
from < to, the split branch calls createMark(5, 2, alice) for the left
remainder, and the library throws the RangeError for empty mark
decorations, so the operation fails instead of completing. -/
theorem C2_split_throws :
    pairwiseDisjointB [⟨5, 8, authorshipSpec "alice"⟩] = true ∧ (2 : Nat) < 10 ∧
      applyOwnershipClaim [⟨5, 8, authorshipSpec "alice"⟩] 2 10 "bob" =
        Except.error "Mark decorations may not be empty" := by
  decide

/-- C3: on the partition with the single interval (0, 5, alice) and the
claim (3, 8, bob) — general overlap, different owner, no shared
boundary, right remainder empty because to = 8 exceeds eTo = 5 — the
code does not insert only the non-empty pieces: it unconditionally
builds createMark(8, 5, alice) and the library throws.  The concrete
strict-containment example of the claim does hold: (0, 10, alice) with
claim (3, 7, bob) gives (0, 3, alice), (3, 7, bob), (7, 10, alice). -/
theorem C3_split_behavior :
    applyOwnershipClaim [⟨0, 5, authorshipSpec "alice"⟩] 3 8 "bob" =
        Except.error "Mark decorations may not be empty" ∧
      applyOwnershipClaim [⟨0, 10, authorshipSpec "alice"⟩] 3 7 "bob" =
        Except.ok [⟨0, 3, authorshipSpec "alice"⟩, ⟨3, 7, authorshipSpec "bob"⟩,
          ⟨7, 10, authorshipSpec "alice"⟩] := by
  decide

/-- C1: the invariant claim is wrong about the code.  The state reached
from the empty partition by the two claims (0, 5, alice) then
(0, 5, bob) — both with from < to — stores two overlapping intervals,
and position 0 is covered by the two different owners alice and bob. -/
theorem C1_counterexample :
    runOps [TrackerOp.claim ⟨0, 5, "alice"⟩, TrackerOp.claim ⟨0, 5, "bob"⟩] =
        [⟨0, 5, authorshipSpec "alice"⟩, ⟨0, 5, authorshipSpec "bob"⟩] ∧
      pairwiseDisjointB
        (runOps [TrackerOp.claim ⟨0, 5, "alice"⟩, TrackerOp.claim ⟨0, 5, "bob"⟩]) = false ∧
      ownersAt (runOps [TrackerOp.claim ⟨0, 5, "alice"⟩, TrackerOp.claim ⟨0, 5, "bob"⟩]) 0 =
        ["alice", "bob"] ∧
      "alice" ≠ "bob" := by
  decide

/-- C4: applying the same ownership claim twice in succession is not
idempotent: from the empty partition, applying (0, 5, alice) twice
stores the interval twice (the same-owner branch keeps the first copy
and, since no split occurred, the claim is inserted again), while
applying it once stores it once. -/
theorem C4_not_idempotent :
    applyOwnershipClaimTx (applyOwnershipClaimTx [] ⟨0, 5, "alice"⟩) ⟨0, 5, "alice"⟩ ≠
      applyOwnershipClaimTx [] ⟨0, 5, "alice"⟩ := by
  decide

/-- C1 amended: of the claimed invariant only the start < end part holds.
Every mark stored in any state reachable from the empty partition by
document changes and ownership claims has a non-empty span (createMark
rejects empty marks and remapping filters collapsed spans); pairwise
disjointness and single-owner coverage fail, as C1_counterexample shows. -/
theorem C1_start_lt_end (ops : List TrackerOp) (m : Mark) (h : m ∈ runOps ops) :
    m.mFrom < m.mTo :=
  (runOps_good ops m h).1

theorem C1_start_lt_end_witness :
    (⟨0, 5, authorshipSpec "alice"⟩ : Mark) ∈ runOps [TrackerOp.claim ⟨0, 5, "alice"⟩] ∧
      (⟨0, 5, authorshipSpec "alice"⟩ : Mark).mFrom < (⟨0, 5, authorshipSpec "alice"⟩ : Mark).mTo :=
  ⟨by decide, C1_start_lt_end [TrackerOp.claim ⟨0, 5, "alice"⟩]
    ⟨0, 5, authorshipSpec "alice"⟩ (by decide)⟩

/-- C4 amended: reapplying a claim is not idempotent but adds exactly one
duplicate.  Whenever applying the claim (effectFrom, effectTo,
effectUserId) succeeds with result p1, applying the same claim again
succeeds and returns p1 with one additional copy of the claim interval
inserted at its sorted position: every decoration of p1 passes the filter
on the second run (split pieces touch the claim or carry its owner, kept
decorations pass for the same reason as before), so no split occurs and
the bare claim is inserted again. -/
theorem C4_reapply_inserts_duplicate (p : List Mark) (eF eT : Nat) (u : String)
    (p1 : List Mark) (h : applyOwnershipClaim p eF eT u = Except.ok p1) :
    applyOwnershipClaim p1 eF eT u =
      Except.ok (insertMark ⟨eF, eT, authorshipSpec u⟩ p1) := by
  obtain ⟨kept, added, toAdd, hf, hcase, hsort, rfl⟩ := applyOwnershipClaim_ok_elim h
  have hlt : eF < eT := by
    rcases hcase with ⟨_, hlt, _⟩ | ⟨hne, rfl⟩
    · exact hlt
    · exact filterPhase_lt_of_added_nonempty hf hne
  have hall : ∀ a ∈ addMarks toAdd kept, splitCond eF eT u a = false := by
    intro a ha
    rcases (mem_addMarks toAdd kept).mp ha with hta | hk
    · rcases hcase with ⟨_, _, rfl⟩ | ⟨_, rfl⟩
      · simp only [List.mem_singleton] at hta
        subst hta
        exact splitCond_eq_false_of_keep (keepDecoration_of_same_user rfl)
      · exact (filterPhase_added hf a hta).1
    · exact (filterPhase_kept hf a hk).2
  have hfp1 : filterPhase eF eT u (addMarks toAdd kept) =
      Except.ok (addMarks toAdd kept, []) := filterPhase_all_pass hall
  have hcm : createMark eF eT u = Except.ok ⟨eF, eT, authorshipSpec u⟩ :=
    createMark_ok_iff.mpr ⟨hlt, rfl⟩
  unfold applyOwnershipClaim
  rw [hfp1]
  simp [Except.map, hcm, sortedByFrom]
  rfl

theorem C4_reapply_inserts_duplicate_witness :
    applyOwnershipClaim [⟨0, 5, authorshipSpec "alice"⟩] 0 5 "alice" =
      Except.ok (insertMark ⟨0, 5, authorshipSpec "alice"⟩ [⟨0, 5, authorshipSpec "alice"⟩]) :=
  C4_reapply_inserts_duplicate [] 0 5 "alice" [⟨0, 5, authorshipSpec "alice"⟩] (by decide)

/-- C5: for a pairwise-disjoint partition, when the effect processing
succeeds, the bare claim interval is inserted exactly when no decoration
was split (the addedDecorations array of the filter pass is empty), and
when a split occurred the claim interval ends up in the result exactly
once, as the middle piece of the unique split. -/
theorem C5_claim_insertion (p : List Mark) (eF eT : Nat) (u : String)
    (kept added p1 : List Mark)
    (hd : pairwiseDisjointB p = true)
    (hf : filterPhase eF eT u p = Except.ok (kept, added))
    (h : applyOwnershipClaim p eF eT u = Except.ok p1) :
    (added = [] → p1 = insertMark ⟨eF, eT, authorshipSpec u⟩ kept) ∧
      (added ≠ [] → countMark ⟨eF, eT, authorshipSpec u⟩ p1 = 1) := by
  obtain ⟨kept', added', toAdd, hf', hcase, hsort, rfl⟩ := applyOwnershipClaim_ok_elim h
  rw [hf] at hf'
  simp only [Except.ok.injEq, Prod.mk.injEq] at hf'
  obtain ⟨rfl, rfl⟩ := hf'
  constructor
  · intro hemp
    subst hemp
    rcases hcase with ⟨_, _, rfl⟩ | ⟨hne, _⟩
    · rfl
    · exact absurd rfl hne
  · intro hne
    rcases hcase with ⟨hemp, _, _⟩ | ⟨_, rfl⟩
    · exact absurd hemp hne
    · obtain ⟨m0, l1, l2, rfl, rfl, h1, h2, h3, hadd⟩ := filterPhase_split_char hd hf hne
      subst hadd
      have hne_left : (⟨m0.mFrom, eF, authorshipSpec (decorationUserId m0)⟩ : Mark) ≠
          ⟨eF, eT, authorshipSpec u⟩ := by
        intro hq
        have hq' := congrArg Mark.mTo hq
        simp at hq'
        omega
      have hne_right : (⟨eT, m0.mTo, authorshipSpec (decorationUserId m0)⟩ : Mark) ≠
          ⟨eF, eT, authorshipSpec u⟩ := by
        intro hq
        have hq' := congrArg Mark.mFrom hq
        simp at hq'
        omega
      have hnm1 : (⟨eF, eT, authorshipSpec u⟩ : Mark) ∉ l1 := by
        intro hmem
        have hdm := (pairwiseDisjointB_middle hd).1 _ hmem
        simp [disjointB] at hdm
        omega
      have hnm2 : (⟨eF, eT, authorshipSpec u⟩ : Mark) ∉ l2 := by
        intro hmem
        have hdm := (pairwiseDisjointB_middle hd).2 _ hmem
        simp [disjointB] at hdm
        omega
      rw [countMark_addMarks, countMark_append,
        countMark_eq_zero_of_not_mem hnm1, countMark_eq_zero_of_not_mem hnm2]
      simp [countMark, hne_left, hne_right]

theorem C5_claim_insertion_witness :
    countMark (⟨3, 7, authorshipSpec "bob"⟩ : Mark)
      [⟨0, 3, authorshipSpec "alice"⟩, ⟨3, 7, authorshipSpec "bob"⟩,
        ⟨7, 10, authorshipSpec "alice"⟩] = 1 :=
  (C5_claim_insertion [⟨0, 10, authorshipSpec "alice"⟩] 3 7 "bob" []
    [⟨0, 3, authorshipSpec "alice"⟩, ⟨3, 7, authorshipSpec "bob"⟩,
      ⟨7, 10, authorshipSpec "alice"⟩]
    [⟨0, 3, authorshipSpec "alice"⟩, ⟨3, 7, authorshipSpec "bob"⟩,
      ⟨7, 10, authorshipSpec "alice"⟩]
    (by decide) (by decide) (by decide)).2 (by decide)

/-- C6: a stored interval that is immediately adjacent to the claim at a
single point (its start equals the claim end, or its end equals the
claim start) is kept completely unchanged by ApplyOwnershipClaim,
whatever its owner: the touching branch of the filter returns true, so
the interval is never split, and on a library exception the whole
transaction keeps the previous state anyway. -/
theorem C6_touching_kept (p : List Mark) (uu : AuthorshipUpdate) (m : Mark)
    (hm : m ∈ p) (ht : m.mFrom = uu.uto ∨ m.mTo = uu.ufrom) :
    m ∈ applyOwnershipClaimTx p uu := by
  unfold applyOwnershipClaimTx
  cases hc : applyOwnershipClaim p uu.ufrom uu.uto uu.userId with
  | error e => exact hm
  | ok next =>
    obtain ⟨kept, added, toAdd, hf, hcase, hsort, rfl⟩ := applyOwnershipClaim_ok_elim hc
    exact (mem_addMarks toAdd kept).mpr (Or.inr (filterPhase_touch_kept hf hm ht))

theorem C6_touching_kept_witness :
    (⟨5, 9, authorshipSpec "alice"⟩ : Mark) ∈
      applyOwnershipClaimTx [⟨5, 9, authorshipSpec "alice"⟩] ⟨1, 5, "bob"⟩ :=
  C6_touching_kept [⟨5, 9, authorshipSpec "alice"⟩] ⟨1, 5, "bob"⟩
    ⟨5, 9, authorshipSpec "alice"⟩ (by decide) (Or.inl rfl)

/-- C8: an invalid claim with from >= to is never stored and leaves the
partition unchanged: every path through the effect processing reaches
createMark with the empty span (either as the middle split piece or as
the bare claim insertion), the library throws, and the aborted
transaction keeps the previous decoration set. -/
theorem C8_invalid_claim_rejected (p : List Mark) (eF eT : Nat) (u : String)
    (hle : eT ≤ eF) :
    (∃ e, applyOwnershipClaim p eF eT u = Except.error e) ∧
      applyOwnershipClaimTx p ⟨eF, eT, u⟩ = p := by
  have herr : ∃ e, applyOwnershipClaim p eF eT u = Except.error e := by
    unfold applyOwnershipClaim
    rcases filterPhase_of_le hle p with hok | ⟨e, he⟩
    · rw [hok]
      have hcm : createMark eF eT u = Except.error "Mark decorations may not be empty" := by
        unfold createMark
        rw [if_pos hle]
      simp [Except.map, hcm]
    · rw [he]
      exact ⟨e, rfl⟩
  refine ⟨herr, ?_⟩
  obtain ⟨e, he⟩ := herr
  unfold applyOwnershipClaimTx
  simp only
  rw [he]

theorem C8_invalid_claim_rejected_witness :
    (∃ e, applyOwnershipClaim [] 5 3 "alice" = Except.error e) ∧
      applyOwnershipClaimTx [] ⟨5, 3, "alice"⟩ = [] :=
  C8_invalid_claim_rejected [] 5 3 "alice" (by decide)

/-- C9: a transaction without authorship effects only remaps: a mark is
in the updated set exactly when it is the remap of a stored mark whose
start and end, mapped independently through the position mapping, still
satisfy start < end; a mark whose remapped span collapses is dropped,
and no claim processing runs. -/
theorem C9_document_change_remap (mapPos : Nat → Nat) (p : List Mark) (m : Mark) :
    m ∈ authorshipsStateFieldUpdate p mapPos [] ↔
      ∃ m0, m0 ∈ p ∧ mapPos m0.mFrom < mapPos m0.mTo ∧ m = remapMark mapPos m0 := by
  show m ∈ applyDocumentChange mapPos p ↔ _
  unfold applyDocumentChange
  rw [List.mem_filter]
  simp only [List.mem_map]
  constructor
  · rintro ⟨⟨m0, hm0, rfl⟩, hlt⟩
    exact ⟨m0, hm0, by simpa [remapMark] using hlt, rfl⟩
  · rintro ⟨m0, hm0, hlt, rfl⟩
    exact ⟨⟨m0, hm0, rfl⟩, by simpa [remapMark] using hlt⟩

theorem C9_document_change_remap_witness :
    (⟨0, 4, authorshipSpec "alice"⟩ : Mark) ∈
      authorshipsStateFieldUpdate [⟨0, 10, authorshipSpec "alice"⟩]
        (fun x => if x ≤ 2 then x else if x < 8 then 2 else x - 6) [] :=
  (C9_document_change_remap (fun x => if x ≤ 2 then x else if x < 8 then 2 else x - 6)
    [⟨0, 10, authorshipSpec "alice"⟩] ⟨0, 4, authorshipSpec "alice"⟩).mpr
    ⟨⟨0, 10, authorshipSpec "alice"⟩, by decide, by decide, by decide⟩

/-- C10: every mark stored in any reachable state carries the CSS class
authorship-highlight and a data-user-id attribute holding exactly the
owner string that the reconciliation reads back through decorationUserId
(which treats an absent attribute as the empty string); both operations
preserve this encoding. -/
theorem C10_mark_encoding (ops : List TrackerOp) (m : Mark) (h : m ∈ runOps ops) :
    m.spec.className = "authorship-highlight" ∧
      m.spec.attributes = some [("data-user-id", decorationUserId m)] := by
  have hs := (runOps_good ops m h).2
  rw [hs]
  exact ⟨rfl, rfl⟩

theorem C10_mark_encoding_witness :
    (⟨2, 6, authorshipSpec "carol"⟩ : Mark).spec.className = "authorship-highlight" ∧
      (⟨2, 6, authorshipSpec "carol"⟩ : Mark).spec.attributes =
        some [("data-user-id", decorationUserId ⟨2, 6, authorshipSpec "carol"⟩)] :=
  C10_mark_encoding [TrackerOp.claim ⟨2, 6, "carol"⟩] ⟨2, 6, authorshipSpec "carol"⟩
    (by decide)

end AuthorshipLayers
